/-
Verification of the markdown-translator core (translator.rs, types.rs, error.rs).

Strings are modelled as lists of characters (`Str := List Char`); `len` and
slice positions are counted in those units, which coincides with Rust's byte
based `str::len` and byte slicing exactly on ASCII text (every theorem that
quantifies over arbitrary text carries an ASCII hypothesis where this
matters).  A separate byte-accurate model of `split_long_paragraph`
(`splitLongParagraphBytes`) tracks UTF-8 byte positions and models a slice at
a non-boundary byte index as `none` (a Rust panic), which is where the code's
byte/char index confusion shows.

The async parts (the reqwest client, tokio sleeps and the semaphore) are not
modelled; `translate_chunk` is abstracted as an oracle `tr` mapping a chunk
to a translation result, and `retry_with_backoff` is modelled with explicit
sequences for the per-attempt outcomes of `RateLimiter::acquire` and of the
operation, recording how often each was invoked and which delays were slept.
-/
import Mathlib

namespace MarkdownTranslator

/-- Rust string slices, modelled as lists of characters. -/
abbrev Str := List Char

/-- Rust `char::is_whitespace`, restricted to the ASCII range (the Unicode
white-space characters outside ASCII are irrelevant to the ASCII-scoped
theorems below). -/
def isWs (c : Char) : Bool :=
  c == ' ' || c == '\t' || c == '\n' || c == '\r' || c == '\x0b' || c == '\x0c'

/-- Rust `str::trim_start`. -/
def trimStart (s : Str) : Str := s.dropWhile isWs

/-- Rust `str::trim_end`. -/
def trimEnd (s : Str) : Str := (s.reverse.dropWhile isWs).reverse

/-- Rust `str::trim`. -/
def trim (s : Str) : Str := trimEnd (trimStart s)

/-- Rust `s[a..b]` on a character-indexed string (total in this model; the byte
level model below accounts for panics at non-boundary indices). -/
def slice (s : Str) (a b : Nat) : Str := (s.drop a).take (b - a)

/-- Rust `str::split` with a multi-character separator pattern: leftmost
match, non-overlapping, keeps empty pieces. `acc` holds the current piece,
reversed. The `fuel` only makes the recursion structural: every step consumes
at least one character of `s`, so the fuel `s.length` supplied by
`splitOnSub` never runs out for a non-empty separator (the last row is then
unreachable). -/
def splitOnSubAux (sep : Str) : Nat → Str → Str → List Str
  | _, [], acc => [acc.reverse]
  | fuel + 1, c :: rest, acc =>
    if sep.isPrefixOf (c :: rest) then
      acc.reverse :: splitOnSubAux sep fuel ((c :: rest).drop sep.length) []
    else
      splitOnSubAux sep fuel rest (c :: acc)
  | 0, s, acc => [acc.reverse ++ s]

/-- Rust `text.split(sep)` for a non-empty separator string. -/
def splitOnSub (sep : Str) (s : Str) : List Str :=
  splitOnSubAux sep s.length s []

/-- The blank-line separator `"\n\n"`. -/
def nl2 : Str := ['\n', '\n']

/-- Rust `str::lines`: split on `'\n'`, drop one trailing empty line, and
strip a trailing `'\r'` from each line. -/
def linesOf (s : Str) : List Str :=
  let parts := splitOnSub ['\n'] s
  let parts := if parts.getLast? = some [] then parts.dropLast else parts
  parts.map (fun l => if l.getLast? = some '\r' then l.dropLast else l)

/-- Rust `Vec::join` with a separator. -/
def joinSep (sep : Str) : List Str → Str
  | [] => []
  | [x] => x
  | x :: y :: rest => x ++ sep ++ joinSep sep (y :: rest)

/-- The fenced code block marker. -/
def fence : Str := "```".toList

/-- The sentinel prefixed to code-block chunks. -/
def sentinel : Str := "__CODE_BLOCK__".toList

/-- The loop body state of `identify_code_blocks`: remaining lines, the
`in_code_block` flag, `current_start`, and `char_pos` (which advances by
`line.len() + 1` per line, as in the source). After the loop an unterminated
open fence is closed at `text.len()`. -/
def identifyCodeBlocksAux (textLen : Nat) :
    List Str → Bool → Nat → Nat → List (Nat × Nat)
  | [], inCode, curStart, _ => if inCode then [(curStart, textLen)] else []
  | line :: rest, inCode, curStart, charPos =>
    if fence.isPrefixOf line then
      if inCode then
        (curStart, charPos + line.length) ::
          identifyCodeBlocksAux textLen rest false curStart (charPos + line.length + 1)
      else
        identifyCodeBlocksAux textLen rest true charPos (charPos + line.length + 1)
    else
      identifyCodeBlocksAux textLen rest inCode curStart (charPos + line.length + 1)

/-- Model of `identify_code_blocks`: spans `(start, end)` of fenced code blocks,
delimited by lines starting with three backticks. -/
def identifyCodeBlocks (text : Str) : List (Nat × Nat) :=
  identifyCodeBlocksAux text.length (linesOf text) false 0 0

/-- The `types.rs` struct `TextSegment`. -/
structure TextSegment where
  content : Str
  is_code_block : Bool
deriving DecidableEq, Repr

/-- The loop of `split_by_code_blocks` over the identified spans, threading
`last_end`; prose between spans is kept only when not whitespace-only, code
spans are kept verbatim. -/
def splitByCodeBlocksAux (text : Str) : List (Nat × Nat) → Nat → List TextSegment
  | [], lastEnd =>
    if lastEnd < text.length then
      let content := slice text lastEnd text.length
      if (trim content).isEmpty then [] else [⟨content, false⟩]
    else []
  | (s, e) :: rest, lastEnd =>
    (if lastEnd < s then
      let content := slice text lastEnd s
      if (trim content).isEmpty then [] else [⟨content, false⟩]
    else []) ++ (⟨slice text s e, true⟩ :: splitByCodeBlocksAux text rest e)

/-- Model of `split_by_code_blocks`, including its final fallback to a single
non-code segment holding the whole text. -/
def splitByCodeBlocks (text : Str) (blocks : List (Nat × Nat)) : List TextSegment :=
  let segs := splitByCodeBlocksAux text blocks 0
  if segs.isEmpty then [⟨text, false⟩] else segs

/-- The sentence-ending punctuation scanned for by `split_long_paragraph`. -/
def isSentencePunct (c : Char) : Bool :=
  c == '.' || c == '!' || c == '?' || c == '。' || c == '！' || c == '？'

/-- The break characters scanned for by `split_long_paragraph`. -/
def isBreakWs (c : Char) : Bool :=
  c == ' ' || c == '\n' || c == '\t'

/-- Model of `for i in (a..b).rev() { if pred(p.chars().nth(i).unwrap_or(' ')) { return i } }`:
the largest `i` in `[a, b)` whose character (by character index, with `' '`
for out-of-range — exactly the source's `unwrap_or`) satisfies `pred`. -/
def revScan (p : Str) (pred : Char → Bool) (a : Nat) : Nat → Option Nat
  | 0 => none
  | b + 1 =>
    if a ≤ b then
      if pred (p.getD b ' ') then some b else revScan p pred a b
    else none

/-- The `actual_end` computation of one `split_long_paragraph` iteration for a
window `[start, e)` with `e` short of the text end: prefer the character after
the last sentence punctuation; if that leaves `actual_end == e`, prefer the
character after the last break whitespace; otherwise keep `e`.  (The source's
final `if actual_end == end && end - start < max_length / 2 { actual_end =
end; }` assigns `end` when `actual_end` is already `end`, a no-op, so it does
not appear here.) -/
def findCut (p : Str) (start e : Nat) : Nat :=
  match revScan p isSentencePunct start e with
  | some i =>
    if i + 1 = e then
      match revScan p isBreakWs start e with
      | some j => j + 1
      | none => e
    else i + 1
  | none =>
    match revScan p isBreakWs start e with
    | some j => j + 1
    | none => e

/-- One iteration's `actual_end` in `split_long_paragraph`: the window is
`[start, end)` with `end = min(start + max_length, paragraph.len())`, and the
backward scans run only when `end` falls short of the text end. -/
def slpCut (p : Str) (maxLen start : Nat) : Nat :=
  if min (start + maxLen) p.length < p.length
  then findCut p start (min (start + maxLen) p.length)
  else min (start + maxLen) p.length

/-- The `while start < paragraph.len()` loop of `split_long_paragraph` in the
character model. `fuel` bounds the iterations; `paragraph.length` is enough
whenever `maxLen ≥ 1` because `start` strictly increases (with `maxLen = 0`
the source loops forever, which the claims exclude). -/
def splitLongParagraphAux (p : Str) (maxLen : Nat) : Nat → Nat → List Str
  | 0, _ => []
  | fuel + 1, start =>
    if start < p.length then
      if (trim (slice p start (slpCut p maxLen start))).isEmpty then
        splitLongParagraphAux p maxLen fuel (slpCut p maxLen start)
      else
        trim (slice p start (slpCut p maxLen start)) ::
          splitLongParagraphAux p maxLen fuel (slpCut p maxLen start)
    else []

/-- Model of `split_long_paragraph` (character model). -/
def splitLongParagraph (p : Str) (maxLen : Nat) : List Str :=
  splitLongParagraphAux p maxLen p.length 0

/-- The loop of `split_text_by_empty_lines` over `text.split("\n\n")`:
state is (remaining paragraphs, `result`, `current_group`, `current_length`);
paragraphs are trimmed, empty ones skipped, groups joined with a blank line. -/
def splitTextByEmptyLinesAux (maxLen : Nat) :
    List Str → List Str → List Str → Nat → List Str
  | [], result, group, _ =>
    if group.isEmpty then result else result ++ [joinSep nl2 group]
  | para :: rest, result, group, curLen =>
    let para := trim para
    if para.isEmpty then splitTextByEmptyLinesAux maxLen rest result group curLen
    else
      let paraLen := para.length
      let potential := if group.isEmpty then paraLen else curLen + 2 + paraLen
      if potential ≤ maxLen then
        splitTextByEmptyLinesAux maxLen rest result (group ++ [para]) potential
      else
        let result := if group.isEmpty then result else result ++ [joinSep nl2 group]
        if maxLen < paraLen then
          splitTextByEmptyLinesAux maxLen rest (result ++ splitLongParagraph para maxLen) [] 0
        else
          splitTextByEmptyLinesAux maxLen rest result [para] paraLen

/-- Model of `split_text_by_empty_lines`. -/
def splitTextByEmptyLines (maxLen : Nat) (text : Str) : List Str :=
  if text.length ≤ maxLen then [text]
  else splitTextByEmptyLinesAux maxLen (splitOnSub nl2 text) [] [] 0

/-- The inner paragraph loop of `split_text_into_chunks` (lines 327-356):
state is (`chunks`, `current_chunk`); paragraphs whose trim is empty are
skipped, others are appended to `current_chunk` (joined by a blank line) while
the length allows, else `current_chunk` is flushed and the paragraph either
force-split (when longer than `maxLen`) or made the new `current_chunk`. -/
def chunkParas (maxLen : Nat) : List Str → List Str → Str → List Str × Str
  | [], chunks, cur => (chunks, cur)
  | para :: rest, chunks, cur =>
    if (trim para).isEmpty then chunkParas maxLen rest chunks cur
    else if (if cur.isEmpty then para.length else cur.length + 2 + para.length) ≤ maxLen then
      chunkParas maxLen rest chunks (if cur.isEmpty then para else cur ++ nl2 ++ para)
    else if maxLen < para.length then
      chunkParas maxLen rest
        ((if cur.isEmpty then chunks else chunks ++ [cur]) ++ splitLongParagraph para maxLen) []
    else
      chunkParas maxLen rest (if cur.isEmpty then chunks else chunks ++ [cur]) para

/-- The segment loop of `split_text_into_chunks` (lines 315-358): a code
segment flushes `current_chunk` and is pushed as a single sentinel-prefixed
chunk; a prose segment is handed to the paragraph loop. -/
def chunkSegs (maxLen : Nat) : List TextSegment → List Str → Str → List Str × Str
  | [], chunks, cur => (chunks, cur)
  | seg :: rest, chunks, cur =>
    if seg.is_code_block then
      chunkSegs maxLen rest
        ((if cur.isEmpty then chunks else chunks ++ [cur]) ++ [sentinel ++ seg.content]) []
    else
      chunkSegs maxLen rest
        (chunkParas maxLen (splitTextByEmptyLines maxLen seg.content) chunks cur).1
        (chunkParas maxLen (splitTextByEmptyLines maxLen seg.content) chunks cur).2

/-- Model of `split_text_into_chunks`: short text is returned whole; otherwise the
text is segmented around code blocks, chunked, the trailing `current_chunk`
flushed, and an empty result replaced by the whole text. -/
def splitTextIntoChunks (text : Str) (maxLen : Nat) : List Str :=
  if text.length ≤ maxLen then [text]
  else
    let segs := splitByCodeBlocks text (identifyCodeBlocks text)
    let st := chunkSegs maxLen segs [] []
    let chunks := if st.2.isEmpty then st.1 else st.1 ++ [st.2]
    if chunks.isEmpty then [text] else chunks

/-- Model of `is_code_block_chunk`. -/
def isCodeBlockChunk (c : Str) : Bool :=
  sentinel.isPrefixOf c || fence.isPrefixOf (trimStart c)

/-- Model of `chunk.strip_prefix("__CODE_BLOCK__").unwrap_or(chunk)`. -/
def stripSentinel (c : Str) : Str :=
  if sentinel.isPrefixOf c then c.drop sentinel.length else c

/-- The `error.rs` enum `TranslationError`. The `Http` variant wraps a
`reqwest::Error`, which has no payload the core inspects; it is modelled with
a message string like the others. -/
inductive TranslationError where
  | Http : Str → TranslationError
  | Custom : Str → TranslationError
  | RateLimitError : Str → TranslationError
  | ApiError : Int → Str → TranslationError
  | ParseError : Str → TranslationError
deriving DecidableEq, Repr

/-- The `types.rs` struct `TranslationConfig`; its `max_requests_per_second: f64` only feeds
the rate limiter (not modelled) and is omitted. -/
structure TranslationConfig where
  enabled : Bool
  source_lang : Str
  target_lang : Str
  deeplx_api_url : Str
  max_text_length : Nat
  max_paragraphs_per_request : Nat

/-- Collect per-chunk results in chunk order, stopping at the first error —
the behaviour of the sequential `for handle in handles { ...? }` loop of
`translate` (completed sibling results are dropped on error). -/
def collectResults {T : Type} : List (Except TranslationError T) →
    Except TranslationError (List T)
  | [] => Except.ok []
  | Except.error e :: _ => Except.error e
  | Except.ok a :: rest => (collectResults rest).map (fun l => a :: l)

/-- The per-chunk dispatch of `translate` (lines 262-273): a code-block chunk
becomes its own content with the sentinel stripped, with no remote call; any
other chunk goes to `translate_chunk`, abstracted as the oracle `tr`. -/
def chunkResult (tr : Str → Except TranslationError Str) (c : Str) :
    Except TranslationError Str :=
  if isCodeBlockChunk c then Except.ok (stripSentinel c) else tr c

/-- Model of `TranslationService::translate`, with `translate_chunk` abstracted as the
oracle `tr`.  Returns the result together with the list of texts dispatched
to `translate_chunk` (the observable remote calls): none when disabled, the
whole text when short, and exactly the non-code chunks otherwise.  Chunk
results are joined with a blank line in chunk order. -/
def translate (cfg : TranslationConfig) (tr : Str → Except TranslationError Str)
    (text : Str) : Except TranslationError Str × List Str :=
  if !cfg.enabled then (Except.ok text, [])
  else if text.length ≤ cfg.max_text_length then (tr text, [text])
  else
    let chunks := splitTextIntoChunks text cfg.max_text_length
    ((collectResults (chunks.map (chunkResult tr))).map (joinSep nl2),
     chunks.filter (fun c => !isCodeBlockChunk c))

/-- The `types.rs` struct `RetryConfig`; its `backoff_multiplier: f64` enters only through
the update `(delay as f64 * backoff_multiplier) as u64`, modelled below as an
abstract `step : Nat → Nat` so that no floating-point semantics is assumed. -/
structure RetryConfig where
  max_retries : Nat
  initial_delay_ms : Nat
  max_delay_ms : Nat

/-- Observable outcome of one `retry_with_backoff` run: the returned value,
how many times the operation and `acquire` were invoked, and the backoff
delays slept (in order). -/
structure RetryOut (T : Type) where
  result : Except TranslationError T
  opCalls : Nat
  acqCalls : Nat
  sleeps : List Nat
deriving Repr

/-- The `for attempt in 0..=max_retries` loop of `retry_with_backoff`.
`acq i` is the outcome of the `rate_limiter.acquire()` before attempt `i`
(`some e` = error, propagated by `?`), `op i` the outcome of the `i`-th
operation call.  `fuel` counts the attempts still allowed after the current
one, so `fuel = 0` is exactly the source's `attempt == config.max_retries`
last-attempt case; the source's trailing `unreachable!()` needs no model
because every loop iteration returns or recurses.  On a non-final failure the
current `delay` is slept and updated to `min(step delay, maxDelay)`. -/
def retryAux {T : Type} (acq : Nat → Option TranslationError)
    (op : Nat → Except TranslationError T) (step : Nat → Nat) (maxDelay : Nat) :
    Nat → Nat → Nat → RetryOut T
  | fuel, attempt, delay =>
    match acq attempt with
    | some e => ⟨Except.error e, 0, 1, []⟩
    | none =>
      match op attempt with
      | Except.ok v => ⟨Except.ok v, 1, 1, []⟩
      | Except.error e =>
        match fuel with
        | 0 => ⟨Except.error e, 1, 1, []⟩
        | fuel + 1 =>
          let out := retryAux acq op step maxDelay fuel (attempt + 1)
            (min (step delay) maxDelay)
          ⟨out.result, out.opCalls + 1, out.acqCalls + 1, delay :: out.sleeps⟩

/-- Model of `retry_with_backoff`. -/
def retryWithBackoff {T : Type} (acq : Nat → Option TranslationError)
    (op : Nat → Except TranslationError T) (step : Nat → Nat)
    (cfg : RetryConfig) : RetryOut T :=
  retryAux acq op step cfg.max_delay_ms cfg.max_retries 0 cfg.initial_delay_ms

/-- The delay sequence named by the spec: `delay[0] = initial_delay` and
`delay[i+1] = min(step(delay[i]), max_delay)`. -/
def delaySeq (step : Nat → Nat) (maxDelay initial : Nat) : Nat → Nat
  | 0 => initial
  | i + 1 => min (step (delaySeq step maxDelay initial i)) maxDelay

/-- UTF-8 byte length of a string (Rust `str::len`). -/
def byteLen (s : Str) : Nat := (s.map Char.utf8Size).sum

/-- Split a string at byte offset `n`: `none` when `n` is not a character
boundary (a Rust byte-slice there panics). -/
def byteSplitAt : Str → Nat → Option (Str × Str)
  | s, 0 => some ([], s)
  | [], _ + 1 => none
  | c :: rest, n + 1 =>
    if c.utf8Size ≤ n + 1 then
      (byteSplitAt rest (n + 1 - c.utf8Size)).map (fun p => (c :: p.1, p.2))
    else none

/-- Rust `&s[a..b]` with byte indices: `none` models the panic on a reversed
range or an index off a character boundary. -/
def byteSlice (s : Str) (a b : Nat) : Option Str :=
  if a ≤ b then
    match byteSplitAt s a with
    | none => none
    | some t =>
      match byteSplitAt t.2 (b - a) with
      | none => none
      | some m => some m.1
  else none

/-- Byte-accurate `split_long_paragraph`: `start`/`end` are byte offsets
(`paragraph.len()` is a byte count) while the backward scans read
`paragraph.chars().nth(i)` — a *character* index — with `unwrap_or(' ')` for
out-of-range `i`, exactly as the source mixes the two.  The final slice
`paragraph[start..actual_end]` is a byte slice and is `none` (panic) off a
character boundary. -/
def slpCutBytes (p : Str) (maxLen start : Nat) : Nat :=
  if min (start + maxLen) (byteLen p) < byteLen p
  then findCut p start (min (start + maxLen) (byteLen p))
  else min (start + maxLen) (byteLen p)

/-- The byte-level `while` loop of `split_long_paragraph`; see `slpCutBytes`
and the model notes above. -/
def splitLongParagraphBytesAux (p : Str) (maxLen : Nat) :
    Nat → Nat → Option (List Str)
  | 0, _ => some []
  | fuel + 1, start =>
    if start < byteLen p then
      match byteSlice p start (slpCutBytes p maxLen start) with
      | none => none
      | some piece =>
        match splitLongParagraphBytesAux p maxLen fuel (slpCutBytes p maxLen start) with
        | none => none
        | some rest => some (if (trim piece).isEmpty then rest else trim piece :: rest)
    else some []

/-- Model of `split_long_paragraph` at byte level; `some` is a normal return, `none` a
panic. -/
def splitLongParagraphBytes (p : Str) (maxLen : Nat) : Option (List Str) :=
  splitLongParagraphBytesAux p maxLen (byteLen p) 0

/-! ## Helper lemmas about trimming, scanning and slicing -/

theorem trimStart_length_le (s : Str) : (trimStart s).length ≤ s.length :=
  (List.dropWhile_suffix isWs).length_le

theorem trimEnd_length_le (s : Str) : (trimEnd s).length ≤ s.length := by
  unfold trimEnd
  rw [List.length_reverse]
  have := (List.dropWhile_suffix (l := s.reverse) isWs).length_le
  simpa using this

theorem trim_length_le (s : Str) : (trim s).length ≤ s.length :=
  le_trans (trimEnd_length_le _) (trimStart_length_le _)

theorem trimStart_idem (s : Str) : trimStart (trimStart s) = trimStart s :=
  List.dropWhile_idempotent _ _

theorem trimEnd_idem (s : Str) : trimEnd (trimEnd s) = trimEnd s := by
  unfold trimEnd
  rw [List.reverse_reverse, List.dropWhile_idempotent]

theorem trimEnd_isPre (s : Str) : trimEnd s <+: s := by
  have h2 := List.reverse_prefix.mpr (List.dropWhile_suffix (l := s.reverse) isWs)
  rw [List.reverse_reverse] at h2
  exact h2

theorem dropWhile_eq_self_of_pre {p : Char → Bool} {l l' : Str}
    (h : List.dropWhile p l = l) (hpre : l' <+: l) : List.dropWhile p l' = l' := by
  cases l' with
  | nil => rfl
  | cons a t =>
    cases l with
    | nil => simp at hpre
    | cons b u =>
      have hab : a = b := by
        obtain ⟨r, hr⟩ := hpre
        have := hr
        simp only [List.cons_append] at this
        exact (List.cons.injEq _ _ _ _ ▸ this).1
      subst hab
      have hpa : p a = false := by
        by_contra hcon
        have hpa : p a = true := by
          cases hh : p a with
          | false => exact absurd hh hcon
          | true => rfl
        rw [List.dropWhile_cons, if_pos hpa] at h
        have hlen := congrArg List.length h
        have := (List.dropWhile_suffix (l := u) p).length_le
        simp at hlen
        omega
      rw [List.dropWhile_cons, if_neg (by simp [hpa])]

theorem trim_idem (s : Str) : trim (trim s) = trim s := by
  have h2 : trimStart (trimEnd (trimStart s)) = trimEnd (trimStart s) :=
    dropWhile_eq_self_of_pre (trimStart_idem s) (trimEnd_isPre (trimStart s))
  show trimEnd (trimStart (trimEnd (trimStart s))) = trimEnd (trimStart s)
  rw [h2, trimEnd_idem]

theorem mem_dropWhile_of_mem {p : Char → Bool} {c : Char} (hc : p c = false) :
    ∀ l : Str, c ∈ l → c ∈ List.dropWhile p l := by
  intro l
  induction l with
  | nil => intro h; exact absurd h (List.not_mem_nil c)
  | cons a t ih =>
    intro h
    rw [List.dropWhile_cons]
    split
    · next hpa =>
      apply ih
      rcases List.mem_cons.mp h with h1 | h1
      · subst h1; rw [hc] at hpa; cases hpa
      · exact h1
    · exact h

theorem trim_ne_nil_of_mem {c : Char} (hc : isWs c = false) {s : Str} (h : c ∈ s) :
    trim s ≠ [] := by
  have h1 : c ∈ trimStart s := mem_dropWhile_of_mem hc s h
  have h2 : c ∈ (trimStart s).reverse := List.mem_reverse.mpr h1
  have h3 : c ∈ List.dropWhile isWs (trimStart s).reverse := mem_dropWhile_of_mem hc _ h2
  show trimEnd (trimStart s) ≠ []
  unfold trimEnd
  intro hcon
  rw [List.reverse_eq_nil_iff] at hcon
  rw [hcon] at h3
  exact absurd h3 (List.not_mem_nil c)

theorem isPrefixOf_append_self : ∀ l m : Str, l.isPrefixOf (l ++ m) = true := by
  intro l m
  induction l with
  | nil => cases m <;> rfl
  | cons a t ih => simpa [List.isPrefixOf] using ih

theorem revScan_some {p : Str} {pred : Char → Bool} {a : Nat} :
    ∀ {b i : Nat}, revScan p pred a b = some i → a ≤ i ∧ i < b := by
  intro b
  induction b with
  | zero => intro i h; simp [revScan] at h
  | succ b ih =>
    intro i h
    unfold revScan at h
    split at h
    · next hab =>
      split at h
      · injection h with h'
        subst h'
        exact ⟨hab, Nat.lt_succ_self b⟩
      · have := ih h
        exact ⟨this.1, Nat.lt_succ_of_lt this.2⟩
    · cases h

theorem findCut_le (p : Str) (start e : Nat) : findCut p start e ≤ e := by
  unfold findCut
  cases h1 : revScan p isSentencePunct start e with
  | some i =>
    dsimp only
    by_cases hie : i + 1 = e
    · rw [if_pos hie]
      cases h2 : revScan p isBreakWs start e with
      | some j => exact (revScan_some h2).2
      | none => exact le_refl e
    · rw [if_neg hie]
      exact (revScan_some h1).2
  | none =>
    dsimp only
    cases h2 : revScan p isBreakWs start e with
    | some j => exact (revScan_some h2).2
    | none => exact le_refl e

theorem findCut_pos (p : Str) (start e : Nat) (h : start < e) :
    start < findCut p start e := by
  unfold findCut
  cases h1 : revScan p isSentencePunct start e with
  | some i =>
    dsimp only
    by_cases hie : i + 1 = e
    · rw [if_pos hie]
      cases h2 : revScan p isBreakWs start e with
      | some j => exact Nat.lt_succ_of_le (revScan_some h2).1
      | none => exact h
    · rw [if_neg hie]
      exact Nat.lt_succ_of_le (revScan_some h1).1
  | none =>
    dsimp only
    cases h2 : revScan p isBreakWs start e with
    | some j => exact Nat.lt_succ_of_le (revScan_some h2).1
    | none => exact h

theorem slpCut_le (p : Str) (maxLen start : Nat) :
    slpCut p maxLen start ≤ start + maxLen := by
  unfold slpCut
  split
  · exact le_trans (findCut_le _ _ _) (Nat.min_le_left _ _)
  · exact Nat.min_le_left _ _

theorem slpCut_pos (p : Str) (maxLen start : Nat) (h1 : 1 ≤ maxLen)
    (h2 : start < p.length) : start < slpCut p maxLen start := by
  unfold slpCut
  split
  · exact findCut_pos _ _ _ (lt_min (by omega) h2)
  · exact lt_min (by omega) h2

/-! ## Helper lemmas about `split_long_paragraph` -/

theorem slp_mem_aux (p : Str) (maxLen : Nat) :
    ∀ fuel start c, c ∈ splitLongParagraphAux p maxLen fuel start →
      c.length ≤ maxLen ∧ trim c = c ∧ c ≠ [] := by
  intro fuel
  induction fuel with
  | zero => intro start c h; simp [splitLongParagraphAux] at h
  | succ fuel ih =>
    intro start c h
    unfold splitLongParagraphAux at h
    split at h
    · split at h
      · exact ih _ _ h
      · next hne =>
        rcases List.mem_cons.mp h with h1 | h1
        · subst h1
          refine ⟨?_, trim_idem _, ?_⟩
          · have hcut := slpCut_le p maxLen start
            have hsl : (slice p start (slpCut p maxLen start)).length ≤ maxLen := by
              unfold slice
              rw [List.length_take]
              exact le_trans (Nat.min_le_left _ _) (by omega)
            exact le_trans (trim_length_le _) hsl
          · simp only [List.isEmpty_iff] at hne
            exact hne
        · exact ih _ _ h1
    · simp at h

theorem getD_mem_slice {p : Str} {i a b : Nat} (ha : a ≤ i) (hb : i < b)
    (hi : i < p.length) : p.getD i ' ' ∈ slice p a b := by
  have hlen : i - a < (List.take (b - a) (List.drop a p)).length := by
    rw [List.length_take, List.length_drop]
    exact lt_min_iff.mpr ⟨by omega, by omega⟩
  have hgd : p.getD i ' ' = p[i] := by
    rw [List.getD_eq_getElem?_getD, List.getElem?_eq_getElem hi]
    rfl
  have heq : (List.take (b - a) (List.drop a p)).get ⟨i - a, hlen⟩ = p.getD i ' ' := by
    rw [List.get_eq_getElem, List.getElem_take, List.getElem_drop, hgd]
    congr 1
    show a + (i - a) = i
    omega
  have hm := List.get_mem (List.take (b - a) (List.drop a p)) (i - a) hlen
  rw [heq] at hm
  exact hm

theorem slp_nonempty_aux (p : Str) (maxLen : Nat) (hm : 1 ≤ maxLen) :
    ∀ fuel start, p.length - start ≤ fuel →
      (∃ i, start ≤ i ∧ i < p.length ∧ isWs (p.getD i ' ') = false) →
      splitLongParagraphAux p maxLen fuel start ≠ [] := by
  intro fuel
  induction fuel with
  | zero =>
    rintro start hf ⟨i, hi1, hi2, _⟩
    omega
  | succ fuel ih =>
    rintro start hf ⟨i, hi1, hi2, hi3⟩
    have hstart : start < p.length := lt_of_le_of_lt hi1 hi2
    have hcutpos : start < slpCut p maxLen start := slpCut_pos p maxLen start hm hstart
    unfold splitLongParagraphAux
    rw [if_pos hstart]
    by_cases hcase : i < slpCut p maxLen start
    · have hchunk : ¬((trim (slice p start (slpCut p maxLen start))).isEmpty = true) := by
        rw [List.isEmpty_iff]
        exact trim_ne_nil_of_mem hi3 (getD_mem_slice hi1 hcase hi2)
      rw [if_neg hchunk]
      simp
    · have hrec := ih (slpCut p maxLen start) (by omega) ⟨i, by omega, hi2, hi3⟩
      split
      · exact hrec
      · simp

/-! ## Helper lemmas about the retry loop -/

theorem retryAux_opCalls_le {T : Type} (acq : Nat → Option TranslationError)
    (op : Nat → Except TranslationError T) (step : Nat → Nat) (maxDelay : Nat) :
    ∀ fuel attempt delay,
      (retryAux acq op step maxDelay fuel attempt delay).opCalls ≤ fuel + 1 := by
  intro fuel
  induction fuel with
  | zero =>
    intro attempt delay
    unfold retryAux
    cases acq attempt with
    | some e => simp
    | none =>
      cases op attempt with
      | ok v => simp
      | error e => simp
  | succ fuel ih =>
    intro attempt delay
    unfold retryAux
    cases acq attempt with
    | some e => simp
    | none =>
      cases op attempt with
      | ok v => simp
      | error e =>
        simp only
        have := ih (attempt + 1) (min (step delay) maxDelay)
        omega

theorem retryAux_always_fails {T : Type} (f : Nat → TranslationError)
    (step : Nat → Nat) (maxDelay : Nat) :
    ∀ fuel attempt delay,
      (retryAux (T := T) (fun _ => none) (fun i => Except.error (f i)) step maxDelay
          fuel attempt delay).result = Except.error (f (attempt + fuel)) ∧
      (retryAux (T := T) (fun _ => none) (fun i => Except.error (f i)) step maxDelay
          fuel attempt delay).opCalls = fuel + 1 := by
  intro fuel
  induction fuel with
  | zero =>
    intro attempt delay
    unfold retryAux
    exact ⟨rfl, rfl⟩
  | succ fuel ih =>
    intro attempt delay
    unfold retryAux
    simp only
    have h := ih (attempt + 1) (min (step delay) maxDelay)
    refine ⟨?_, ?_⟩
    · rw [h.1]
      have : attempt + 1 + fuel = attempt + (fuel + 1) := by omega
      rw [this]
    · rw [h.2]

theorem retryAux_op_le_acq {T : Type} (acq : Nat → Option TranslationError)
    (op : Nat → Except TranslationError T) (step : Nat → Nat) (maxDelay : Nat) :
    ∀ fuel attempt delay,
      (retryAux acq op step maxDelay fuel attempt delay).opCalls ≤
        (retryAux acq op step maxDelay fuel attempt delay).acqCalls := by
  intro fuel
  induction fuel with
  | zero =>
    intro attempt delay
    unfold retryAux
    cases acq attempt with
    | some e => simp
    | none =>
      cases op attempt with
      | ok v => simp
      | error e => simp
  | succ fuel ih =>
    intro attempt delay
    unfold retryAux
    cases acq attempt with
    | some e => simp
    | none =>
      cases op attempt with
      | ok v => simp
      | error e =>
        simp only
        have := ih (attempt + 1) (min (step delay) maxDelay)
        omega

theorem delaySeq_shift (step : Nat → Nat) (maxDelay d : Nat) :
    ∀ i, delaySeq step maxDelay (min (step d) maxDelay) i = delaySeq step maxDelay d (i + 1) := by
  intro i
  induction i with
  | zero => rfl
  | succ i ih => simp only [delaySeq, ih]

theorem retryAux_sleeps {T : Type} (acq : Nat → Option TranslationError)
    (op : Nat → Except TranslationError T) (step : Nat → Nat) (maxDelay : Nat) :
    ∀ fuel attempt delay i d,
      (retryAux acq op step maxDelay fuel attempt delay).sleeps.get? i = some d →
      d = delaySeq step maxDelay delay i := by
  intro fuel
  induction fuel with
  | zero =>
    intro attempt delay i d h
    unfold retryAux at h
    cases hac : acq attempt with
    | some e => rw [hac] at h; simp at h
    | none =>
      rw [hac] at h
      cases hop : op attempt with
      | ok v => rw [hop] at h; simp at h
      | error e => rw [hop] at h; simp at h
  | succ fuel ih =>
    intro attempt delay i d h
    unfold retryAux at h
    cases hac : acq attempt with
    | some e => rw [hac] at h; simp at h
    | none =>
      rw [hac] at h
      cases hop : op attempt with
      | ok v => rw [hop] at h; simp at h
      | error e =>
        rw [hop] at h
        cases i with
        | zero =>
          simp only [List.get?_cons_zero, Option.some_inj] at h
          exact h.symm
        | succ i =>
          simp only [List.get?_cons_succ] at h
          have := ih (attempt + 1) (min (step delay) maxDelay) i d h
          rw [this, delaySeq_shift]

/-! ## C3 -/

/-- C3: `retry_with_backoff` invokes the operation at most `max_retries + 1`
times for every acquire/operation behaviour (the model is a total function,
so termination is by construction, mirroring the bounded `for` loop); on an
operation failing at every invocation (with acquire always succeeding) it
performs exactly `max_retries + 1` invocations and returns the error of the
last one unchanged. -/
theorem retry_invocation_bound {T : Type} (acq : Nat → Option TranslationError)
    (op : Nat → Except TranslationError T) (step : Nat → Nat) (cfg : RetryConfig)
    (f : Nat → TranslationError) :
    (retryWithBackoff acq op step cfg).opCalls ≤ cfg.max_retries + 1 ∧
    (retryWithBackoff (T := T) (fun _ => none) (fun i => Except.error (f i)) step cfg).result
        = Except.error (f cfg.max_retries) ∧
    (retryWithBackoff (T := T) (fun _ => none) (fun i => Except.error (f i)) step cfg).opCalls
        = cfg.max_retries + 1 := by
  refine ⟨retryAux_opCalls_le acq op step cfg.max_delay_ms cfg.max_retries 0 cfg.initial_delay_ms,
    ?_, ?_⟩
  · have h := (retryAux_always_fails (T := T) f step cfg.max_delay_ms cfg.max_retries 0
      cfg.initial_delay_ms).1
    simpa using h
  · exact (retryAux_always_fails (T := T) f step cfg.max_delay_ms cfg.max_retries 0
      cfg.initial_delay_ms).2

/-! ## C4 -/

/-- C4 counterexample: with `initial_delay_ms = 2000 > max_delay_ms = 1000`
and an always-failing operation, the first slept backoff delay is `2000`,
which exceeds `max_delay` — refuting the claim's parenthetical
"no delay ever exceeds max_delay" (the recurrence itself holds: the second
delay is `min(2000*1.2, 1000) = 1000`). -/
theorem initial_delay_exceeds_max_delay :
    (retryWithBackoff (fun _ => none) (fun _ => Except.error (TranslationError.Custom []))
        (fun d => d * 12 / 10) ⟨2, 2000, 1000⟩ : RetryOut Nat).sleeps = [2000, 1000] ∧
    ¬(2000 ≤ 1000) := by
  decide

/-- C4 amended: the slept delays are exactly the sequence with
`delay[0] = initial_delay` and `delay[i+1] = min(step(delay[i]), max_delay)`
(where `step` is the numeric `delay * backoff_multiplier` update), so every
delay after the first is at most `max_delay`; the initial delay itself may
exceed `max_delay` when `initial_delay > max_delay`. -/
theorem backoff_delay_recurrence {T : Type} (acq : Nat → Option TranslationError)
    (op : Nat → Except TranslationError T) (step : Nat → Nat) (cfg : RetryConfig) :
    (∀ i d, (retryWithBackoff acq op step cfg).sleeps.get? i = some d →
        d = delaySeq step cfg.max_delay_ms cfg.initial_delay_ms i) ∧
    (∀ i, delaySeq step cfg.max_delay_ms cfg.initial_delay_ms (i + 1)
        = min (step (delaySeq step cfg.max_delay_ms cfg.initial_delay_ms i)) cfg.max_delay_ms) ∧
    (∀ i, delaySeq step cfg.max_delay_ms cfg.initial_delay_ms (i + 1) ≤ cfg.max_delay_ms) := by
  refine ⟨?_, fun i => rfl, fun i => ?_⟩
  · intro i d h
    exact retryAux_sleeps acq op step cfg.max_delay_ms cfg.max_retries 0
      cfg.initial_delay_ms i d h
  · simp only [delaySeq]
    exact Nat.min_le_right _ _

/-- Witness for `backoff_delay_recurrence` at a concrete run: with
`max_retries = 3`, `initial = 100`, `max_delay = 1000` and integer step
`d * 12 / 10`, the third slept delay `144` matches `delaySeq` at index 2, and
the delays at indices `1` and `3` are bounded by `max_delay`. -/
theorem backoff_delay_recurrence_witness :
    144 = delaySeq (fun d => d * 12 / 10) 1000 100 2 ∧
    delaySeq (fun d => d * 12 / 10) 1000 100 3 ≤ 1000 := by
  have h := backoff_delay_recurrence (T := Nat) (fun _ => none)
    (fun _ => Except.error (TranslationError.Custom [])) (fun d => d * 12 / 10) ⟨3, 100, 1000⟩
  exact ⟨h.1 2 144 (by decide), h.2.2 2⟩

/-! ## C9 -/

theorem retryAux_acquire_err {T : Type} (acq : Nat → Option TranslationError)
    (op : Nat → Except TranslationError T) (step : Nat → Nat) (maxDelay : Nat)
    (e : TranslationError) :
    ∀ k fuel attempt delay, k ≤ fuel →
      (∀ j, j < k → acq (attempt + j) = none) →
      (∀ j, j < k → ∃ err, op (attempt + j) = Except.error err) →
      acq (attempt + k) = some e →
      (retryAux acq op step maxDelay fuel attempt delay).result = Except.error e ∧
      (retryAux acq op step maxDelay fuel attempt delay).opCalls = k ∧
      (retryAux acq op step maxDelay fuel attempt delay).acqCalls = k + 1 := by
  intro k
  induction k with
  | zero =>
    intro fuel attempt delay _ _ _ he
    simp only [Nat.add_zero] at he
    cases fuel <;> · unfold retryAux; rw [he]; exact ⟨rfl, rfl, rfl⟩
  | succ k ih =>
    intro fuel attempt delay hk hacq hop he
    have hac0 : acq attempt = none := by
      have := hacq 0 (by omega)
      simpa using this
    obtain ⟨err, herr⟩ := hop 0 (by omega)
    simp only [Nat.add_zero] at herr
    cases fuel with
    | zero => omega
    | succ fuel =>
      unfold retryAux
      rw [hac0, herr]
      simp only
      have := ih fuel (attempt + 1) (min (step delay) maxDelay) (by omega)
        (fun j hj => by have := hacq (j + 1) (by omega); rwa [Nat.add_comm j 1, ← Nat.add_assoc] at this)
        (fun j hj => by have := hop (j + 1) (by omega); rwa [Nat.add_comm j 1, ← Nat.add_assoc] at this)
        (by have := he; rwa [Nat.add_comm k 1, ← Nat.add_assoc] at this)
      exact ⟨this.1, by omega, by omega⟩

/-- C9: the rate limiter is acquired before every attempt including the first
(the operation count never exceeds the acquire count in any run), and if the
`k`-th acquire fails after `k` failed attempts, its error is returned
unchanged with exactly `k` operation invocations — the operation of the
failing attempt is not invoked and there are no further retries (exactly
`k + 1` acquires). -/
theorem acquire_error_propagates {T : Type} (acq : Nat → Option TranslationError)
    (op : Nat → Except TranslationError T) (step : Nat → Nat) (cfg : RetryConfig)
    (k : Nat) (e : TranslationError)
    (hk : k ≤ cfg.max_retries)
    (hacq : ∀ j, j < k → acq j = none)
    (hop : ∀ j, j < k → ∃ err, op j = Except.error err)
    (he : acq k = some e) :
    (retryWithBackoff acq op step cfg).result = Except.error e ∧
    (retryWithBackoff acq op step cfg).opCalls = k ∧
    (retryWithBackoff acq op step cfg).acqCalls = k + 1 ∧
    (∀ acq2 op2 cfg2, (retryWithBackoff (T := T) acq2 op2 step cfg2).opCalls ≤
        (retryWithBackoff (T := T) acq2 op2 step cfg2).acqCalls) := by
  have h := retryAux_acquire_err acq op step cfg.max_delay_ms e k cfg.max_retries 0
    cfg.initial_delay_ms hk (by simpa using hacq) (by simpa using hop) (by simpa using he)
  exact ⟨h.1, h.2.1, h.2.2,
    fun acq2 op2 cfg2 => retryAux_op_le_acq acq2 op2 step cfg2.max_delay_ms
      cfg2.max_retries 0 cfg2.initial_delay_ms⟩

/-- Witness for `acquire_error_propagates`: acquire succeeds before attempt 0,
attempt 0 fails, the acquire before attempt 1 fails with a rate-limit error;
the run returns that error with one operation call and two acquires. -/
theorem acquire_error_propagates_witness :
    (retryWithBackoff (T := Nat)
        (fun j => if j = 1 then some (TranslationError.RateLimitError []) else none)
        (fun _ => Except.error (TranslationError.Custom []))
        (fun d => d * 12 / 10) ⟨3, 100, 1000⟩).result
      = Except.error (TranslationError.RateLimitError []) ∧
    (retryWithBackoff (T := Nat)
        (fun j => if j = 1 then some (TranslationError.RateLimitError []) else none)
        (fun _ => Except.error (TranslationError.Custom []))
        (fun d => d * 12 / 10) ⟨3, 100, 1000⟩).opCalls = 1 ∧
    (retryWithBackoff (T := Nat)
        (fun j => if j = 1 then some (TranslationError.RateLimitError []) else none)
        (fun _ => Except.error (TranslationError.Custom []))
        (fun d => d * 12 / 10) ⟨3, 100, 1000⟩).acqCalls = 2 := by
  have h := acquire_error_propagates (T := Nat)
    (fun j => if j = 1 then some (TranslationError.RateLimitError []) else none)
    (fun _ => Except.error (TranslationError.Custom [])) (fun d => d * 12 / 10)
    ⟨3, 100, 1000⟩ 1 (TranslationError.RateLimitError [])
    (by decide)
    (fun j hj => by
      have : j = 0 := by omega
      subst this; rfl)
    (fun j hj => ⟨TranslationError.Custom [], rfl⟩)
    (by decide)
  exact ⟨h.1, h.2.1, h.2.2.1⟩

/-! ## C7 -/

/-- C7: with translation disabled, `translate` returns the input text
unchanged and dispatches no remote call (the recorded call list is empty). -/
theorem translate_disabled_passthrough (cfg : TranslationConfig)
    (tr : Str → Except TranslationError Str) (text : Str)
    (h : cfg.enabled = false) :
    translate cfg tr text = (Except.ok text, []) := by
  simp [translate, h]

/-- Witness for `translate_disabled_passthrough` at a concrete disabled
configuration and input. -/
theorem translate_disabled_passthrough_witness :
    translate ⟨false, [], [], [], 3000, 10⟩ (fun _ => Except.error (TranslationError.Custom []))
        "Hello".toList = (Except.ok ("Hello".toList), []) :=
  translate_disabled_passthrough _ _ _ rfl

/-! ## C1 -/

/-- C1 counterexample: on the non-empty input `"aaaa bbbb"` with
`max_text_length = 5 > 0` the chunker force-splits at the space and trims it
away, so concatenating the chunk contents (no chunk carries the sentinel)
yields `"aaaabbbb"`, not the original text. -/
theorem chunk_concat_loses_whitespace :
    "aaaa bbbb".toList ≠ ([] : Str) ∧ 0 < 5 ∧
    splitTextIntoChunks ("aaaa bbbb".toList) 5 = ["aaaa".toList, "bbbb".toList] ∧
    ((splitTextIntoChunks ("aaaa bbbb".toList) 5).map stripSentinel).flatten
      ≠ "aaaa bbbb".toList := by
  decide

/-- C1 amended: for every non-empty ASCII text and positive `max_text_length`
the chunker returns at least one chunk (the final fallback guarantees this);
concatenating the chunk contents does not in general reconstruct the input,
because paragraph separators and whitespace at forced split points are
dropped.  The ASCII hypothesis scopes the character model to where it is
byte-faithful: on multi-byte input the source can panic inside
`split_long_paragraph` (the byte/char index mix documented with the byte
model) and then returns no chunk list at all. -/
theorem chunker_nonempty (text : Str) (maxLen : Nat)
    (h1 : text ≠ []) (h2 : 0 < maxLen)
    (hascii : ∀ ch ∈ text, ch.toNat < 128) :
    splitTextIntoChunks text maxLen ≠ [] := by
  unfold splitTextIntoChunks
  by_cases hlen : text.length ≤ maxLen
  · simp [hlen]
  · simp only [if_neg hlen]
    split <;> split <;> simp_all

/-- Witness for `chunker_nonempty` at a concrete input. -/
theorem chunker_nonempty_witness :
    splitTextIntoChunks ("ab".toList) 1 ≠ [] :=
  chunker_nonempty ("ab".toList) 1 (by decide) (by decide) (by decide)

/-! ## C2 counterexample -/

/-- C2 counterexample: the text `"a\n```c\n```"` contains the fenced block
spanning positions 2..10 (`identify_code_blocks` finds it), but since the
whole text is within `max_text_length = 100` the chunker returns it as a
single chunk that merges the code block with the prose line `"a"`, and no
chunk equals the block (with or without the sentinel). `translate` then
sends this merged chunk to the remote oracle, because `is_code_block_chunk`
is false for it — the block is translated. -/
theorem short_text_code_block_merged :
    identifyCodeBlocks ("a\n```c\n```".toList) = [(2, 10)] ∧
    slice ("a\n```c\n```".toList) 2 10 = "```c\n```".toList ∧
    splitTextIntoChunks ("a\n```c\n```".toList) 100 = ["a\n```c\n```".toList] ∧
    (∀ c ∈ splitTextIntoChunks ("a\n```c\n```".toList) 100,
        c ≠ "```c\n```".toList ∧ c ≠ sentinel ++ "```c\n```".toList) ∧
    (∀ cfg : TranslationConfig, cfg.enabled = true → cfg.max_text_length = 100 →
      ∀ tr, translate cfg tr ("a\n```c\n```".toList) = (tr ("a\n```c\n```".toList),
        ["a\n```c\n```".toList])) := by
  refine ⟨by decide, by decide, by decide, by decide, ?_⟩
  intro cfg hen hmax tr
  simp [translate, hen, hmax]

/-! ## C2 amended: code-block atomicity on the chunked path -/

theorem sbcbAux_mem (text : Str) :
    ∀ blocks lastEnd s e, (s, e) ∈ blocks →
      (⟨slice text s e, true⟩ : TextSegment) ∈ splitByCodeBlocksAux text blocks lastEnd := by
  intro blocks
  induction blocks with
  | nil =>
    intro lastEnd s e h
    exact absurd h (List.not_mem_nil _)
  | cons b rest ih =>
    intro lastEnd s e h
    obtain ⟨s', e'⟩ := b
    unfold splitByCodeBlocksAux
    rcases List.mem_cons.mp h with h1 | h1
    · injection h1 with hs he
      subst hs
      subst he
      exact List.mem_append.mpr (Or.inr (List.mem_cons.mpr (Or.inl rfl)))
    · exact List.mem_append.mpr (Or.inr (List.mem_cons.mpr (Or.inr (ih e' s e h1))))

theorem sbcb_mem (text : Str) (blocks : List (Nat × Nat)) {s e : Nat}
    (h : (s, e) ∈ blocks) :
    (⟨slice text s e, true⟩ : TextSegment) ∈ splitByCodeBlocks text blocks := by
  have hm := sbcbAux_mem text blocks 0 s e h
  unfold splitByCodeBlocks
  by_cases hemp : (splitByCodeBlocksAux text blocks 0).isEmpty = true
  · rw [List.isEmpty_iff] at hemp
    rw [hemp] at hm
    exact absurd hm (List.not_mem_nil _)
  · rw [if_neg hemp]
    exact hm

theorem chunkParas_mono (maxLen : Nat) :
    ∀ paras chunks cur x, x ∈ chunks → x ∈ (chunkParas maxLen paras chunks cur).1 := by
  intro paras
  induction paras with
  | nil => intro chunks cur x hx; exact hx
  | cons para rest ih =>
    intro chunks cur x hx
    unfold chunkParas
    by_cases htr : (trim para).isEmpty = true
    · rw [if_pos htr]
      exact ih _ _ _ hx
    · rw [if_neg htr]
      by_cases hce : cur.isEmpty = true
      · simp only [if_pos hce]
        by_cases hpot : para.length ≤ maxLen
        · rw [if_pos hpot]
          exact ih _ _ _ hx
        · rw [if_neg hpot, if_pos (by omega)]
          exact ih _ _ _ (List.mem_append.mpr (Or.inl hx))
      · simp only [if_neg hce]
        by_cases hpot : cur.length + 2 + para.length ≤ maxLen
        · rw [if_pos hpot]
          exact ih _ _ _ hx
        · rw [if_neg hpot]
          by_cases hlong : maxLen < para.length
          · rw [if_pos hlong]
            exact ih _ _ _
              (List.mem_append.mpr (Or.inl (List.mem_append.mpr (Or.inl hx))))
          · rw [if_neg hlong]
            exact ih _ _ _ (List.mem_append.mpr (Or.inl hx))

theorem chunkSegs_mono (maxLen : Nat) :
    ∀ segs chunks cur x, x ∈ chunks → x ∈ (chunkSegs maxLen segs chunks cur).1 := by
  intro segs
  induction segs with
  | nil => intro chunks cur x hx; exact hx
  | cons seg rest ih =>
    intro chunks cur x hx
    unfold chunkSegs
    by_cases hcode : seg.is_code_block = true
    · rw [if_pos hcode]
      apply ih
      apply List.mem_append.mpr
      left
      by_cases hce : cur.isEmpty = true
      · rw [if_pos hce]
        exact hx
      · rw [if_neg hce]
        exact List.mem_append.mpr (Or.inl hx)
    · rw [if_neg hcode]
      exact ih _ _ _ (chunkParas_mono maxLen _ _ _ _ hx)

theorem chunkSegs_code_mem (maxLen : Nat) :
    ∀ segs chunks cur seg, seg ∈ segs → seg.is_code_block = true →
      (sentinel ++ seg.content) ∈ (chunkSegs maxLen segs chunks cur).1 := by
  intro segs
  induction segs with
  | nil =>
    intro _ _ seg h _
    exact absurd h (List.not_mem_nil _)
  | cons s0 rest ih =>
    intro chunks cur seg h hcode
    rcases List.mem_cons.mp h with h1 | h1
    · subst h1
      unfold chunkSegs
      rw [if_pos hcode]
      apply chunkSegs_mono
      exact List.mem_append.mpr (Or.inr (List.mem_singleton.mpr rfl))
    · unfold chunkSegs
      by_cases hc0 : s0.is_code_block = true
      · rw [if_pos hc0]
        exact ih _ _ _ h1 hcode
      · rw [if_neg hc0]
        exact ih _ _ _ h1 hcode

/-- C2 amended: on the chunked path (text longer than `max_text_length`),
every fenced code block found by `identify_code_blocks` becomes one code
segment carrying the block span verbatim, that segment is emitted whole as a
single sentinel-prefixed chunk (never split), and the orchestrator's result
for a sentinel-prefixed chunk is exactly the block content, with no remote
call.  For text within `max_text_length` the chunker returns the whole text
as one chunk and `translate` sends it — fenced block included — to the remote
call, which is what the counterexample records. -/
theorem code_block_chunks_atomic (text : Str) (maxLen : Nat)
    (tr : Str → Except TranslationError Str)
    (hlen : maxLen < text.length) (hascii : ∀ ch ∈ text, ch.toNat < 128) :
    ∀ se ∈ identifyCodeBlocks text,
      (⟨slice text se.1 se.2, true⟩ : TextSegment)
          ∈ splitByCodeBlocks text (identifyCodeBlocks text) ∧
      (sentinel ++ slice text se.1 se.2) ∈ splitTextIntoChunks text maxLen ∧
      chunkResult tr (sentinel ++ slice text se.1 se.2)
          = Except.ok (slice text se.1 se.2) := by
  intro se hse
  obtain ⟨s, e⟩ := se
  have hseg := sbcb_mem text (identifyCodeBlocks text) hse
  refine ⟨hseg, ?_, ?_⟩
  · have hmem := chunkSegs_code_mem maxLen
      (splitByCodeBlocks text (identifyCodeBlocks text)) [] [] _ hseg rfl
    unfold splitTextIntoChunks
    rw [if_neg (by omega)]
    dsimp only
    set st := chunkSegs maxLen (splitByCodeBlocks text (identifyCodeBlocks text)) [] []
      with hst
    by_cases h2e : st.2.isEmpty = true
    · rw [if_pos h2e]
      have hne : ¬(st.1.isEmpty = true) := by
        rw [List.isEmpty_iff]
        exact List.ne_nil_of_mem hmem
      rw [if_neg hne]
      exact hmem
    · rw [if_neg h2e]
      have hne : ¬((st.1 ++ [st.2]).isEmpty = true) := by simp
      rw [if_neg hne]
      exact List.mem_append.mpr (Or.inl hmem)
  · have hcb : isCodeBlockChunk (sentinel ++ slice text s e) = true := by
      unfold isCodeBlockChunk
      rw [isPrefixOf_append_self]
      rfl
    unfold chunkResult
    rw [if_pos hcb]
    unfold stripSentinel
    rw [if_pos (isPrefixOf_append_self _ _), List.drop_left]

/-- Witness for `code_block_chunks_atomic` on a concrete long text with one
fenced block. -/
theorem code_block_chunks_atomic_witness :
    (sentinel ++ slice ("a\n```c\n```\nmore prose here".toList) 2 10)
        ∈ splitTextIntoChunks ("a\n```c\n```\nmore prose here".toList) 5 ∧
    chunkResult (fun _ => Except.error (TranslationError.Custom []))
        (sentinel ++ slice ("a\n```c\n```\nmore prose here".toList) 2 10)
      = Except.ok (slice ("a\n```c\n```\nmore prose here".toList) 2 10) := by
  have h := code_block_chunks_atomic ("a\n```c\n```\nmore prose here".toList) 5
    (fun _ => Except.error (TranslationError.Custom [])) (by decide) (by decide)
    (2, 10) (by decide)
  exact ⟨h.2.1, h.2.2⟩

/-! ## C5 counterexample -/

/-- C5 counterexample: a whitespace-only input of 10 newlines with
`max_text_length = 5` produces no paragraph chunks (every paragraph trims to
empty), so the fallback emits the whole 10-character text as a single chunk —
a chunk that is neither a code-block chunk nor a forced sub-chunk of an
oversized paragraph, yet exceeds the bound. -/
theorem whitespace_fallback_exceeds_bound :
    splitTextIntoChunks (List.replicate 10 '\n') 5 = [List.replicate 10 '\n'] ∧
    sentinel.isPrefixOf (List.replicate 10 '\n') = false ∧
    (List.replicate 10 '\n').length = 10 ∧ ¬((List.replicate 10 '\n').length ≤ 5) := by
  decide

/-! ## C8 counterexample -/

/-- C8 counterexample: a paragraph of 7 spaces with `max_length = 3` exceeds
the limit, but `split_long_paragraph` returns no sub-chunk at all (every
window trims to empty), refuting the claimed minimum of two sub-chunks. -/
theorem force_split_returns_no_subchunk :
    3 < (List.replicate 7 ' ').length ∧
    splitLongParagraph (List.replicate 7 ' ') 3 = [] := by
  decide

/-- C8 amended: for an (ASCII) paragraph longer than `max_length ≥ 1`,
`split_long_paragraph` returns sub-chunks that are each at most `max_length`
long, trimmed (fixed points of `trim`) and non-empty; at least one sub-chunk
is returned when the paragraph contains a non-whitespace character — but
possibly only one, and none at all for an all-whitespace paragraph, so
"at least two" does not hold. -/
theorem split_long_paragraph_subchunks (p : Str) (maxLen : Nat)
    (h1 : 1 ≤ maxLen) (h2 : maxLen < p.length)
    (hascii : ∀ ch ∈ p, ch.toNat < 128) :
    (∀ c ∈ splitLongParagraph p maxLen, c.length ≤ maxLen ∧ trim c = c ∧ c ≠ []) ∧
    ((∃ ch ∈ p, isWs ch = false) → splitLongParagraph p maxLen ≠ []) := by
  constructor
  · intro c hc
    exact slp_mem_aux p maxLen p.length 0 c hc
  · rintro ⟨ch, hmem, hws⟩
    obtain ⟨n, hn⟩ := List.mem_iff_get.mp hmem
    apply slp_nonempty_aux p maxLen h1 p.length 0 (by omega)
    refine ⟨n.1, Nat.zero_le _, n.isLt, ?_⟩
    have : p.getD n.1 ' ' = ch := by
      rw [List.getD_eq_getElem?_getD, List.getElem?_eq_getElem n.isLt]
      rw [← List.get_eq_getElem, hn]
      rfl
    rw [this]
    exact hws

/-- Witness for `split_long_paragraph_subchunks`: the 9-character paragraph
`"aaaa bbbb"` with `max_length = 5` yields a non-empty sub-chunk list. -/
theorem split_long_paragraph_subchunks_witness :
    splitLongParagraph ("aaaa bbbb".toList) 5 ≠ [] :=
  (split_long_paragraph_subchunks ("aaaa bbbb".toList) 5 (by decide) (by decide)
    (by decide)).2 ⟨'a', by decide, by decide⟩

/-! ## C5 amended: helper invariants and the length bound -/

theorem chunkParas_inv (maxLen : Nat) :
    ∀ paras chunks cur,
      (∀ c ∈ chunks, sentinel.isPrefixOf c = true ∨ c.length ≤ maxLen) →
      cur.length ≤ maxLen →
      (∀ c ∈ (chunkParas maxLen paras chunks cur).1,
          sentinel.isPrefixOf c = true ∨ c.length ≤ maxLen) ∧
      (chunkParas maxLen paras chunks cur).2.length ≤ maxLen := by
  intro paras
  induction paras with
  | nil =>
    intro chunks cur h1 h2
    exact ⟨h1, h2⟩
  | cons para rest ih =>
    intro chunks cur h1 h2
    unfold chunkParas
    by_cases htr : (trim para).isEmpty = true
    · rw [if_pos htr]
      exact ih chunks cur h1 h2
    · rw [if_neg htr]
      by_cases hce : cur.isEmpty = true
      · simp only [if_pos hce]
        by_cases hpot : para.length ≤ maxLen
        · rw [if_pos hpot]
          exact ih chunks para h1 hpot
        · rw [if_neg hpot]
          rw [if_pos (by omega)]
          apply ih _ _ ?_ (by simp)
          intro c hc
          rcases List.mem_append.mp hc with hc1 | hc1
          · exact h1 c hc1
          · exact Or.inr (slp_mem_aux para maxLen para.length 0 c hc1).1
      · simp only [if_neg hce]
        by_cases hpot : cur.length + 2 + para.length ≤ maxLen
        · rw [if_pos hpot]
          apply ih chunks _ h1
          simp only [List.length_append, nl2, List.length_cons, List.length_nil]
          omega
        · rw [if_neg hpot]
          by_cases hlong : maxLen < para.length
          · rw [if_pos hlong]
            apply ih _ _ ?_ (by simp)
            intro c hc
            rcases List.mem_append.mp hc with hc1 | hc1
            · rcases List.mem_append.mp hc1 with hc2 | hc2
              · exact h1 c hc2
              · simp only [List.mem_singleton] at hc2
                subst hc2
                exact Or.inr h2
            · exact Or.inr (slp_mem_aux para maxLen para.length 0 c hc1).1
          · rw [if_neg hlong]
            apply ih _ _ ?_ (by omega)
            intro c hc
            rcases List.mem_append.mp hc with hc2 | hc2
            · exact h1 c hc2
            · simp only [List.mem_singleton] at hc2
              subst hc2
              exact Or.inr h2

theorem chunkSegs_inv (maxLen : Nat) :
    ∀ segs chunks cur,
      (∀ c ∈ chunks, sentinel.isPrefixOf c = true ∨ c.length ≤ maxLen) →
      cur.length ≤ maxLen →
      (∀ c ∈ (chunkSegs maxLen segs chunks cur).1,
          sentinel.isPrefixOf c = true ∨ c.length ≤ maxLen) ∧
      (chunkSegs maxLen segs chunks cur).2.length ≤ maxLen := by
  intro segs
  induction segs with
  | nil =>
    intro chunks cur h1 h2
    exact ⟨h1, h2⟩
  | cons seg rest ih =>
    intro chunks cur h1 h2
    unfold chunkSegs
    by_cases hcode : seg.is_code_block = true
    · rw [if_pos hcode]
      apply ih _ _ ?_ (by simp)
      intro c hc
      rcases List.mem_append.mp hc with hc1 | hc1
      · by_cases hce : cur.isEmpty = true
        · rw [if_pos hce] at hc1
          exact h1 c hc1
        · rw [if_neg hce] at hc1
          rcases List.mem_append.mp hc1 with hc2 | hc2
          · exact h1 c hc2
          · simp only [List.mem_singleton] at hc2
            subst hc2
            exact Or.inr h2
      · simp only [List.mem_singleton] at hc1
        subst hc1
        exact Or.inl (isPrefixOf_append_self _ _)
    · rw [if_neg hcode]
      have hp := chunkParas_inv maxLen (splitTextByEmptyLines maxLen seg.content)
        chunks cur h1 h2
      exact ih _ _ hp.1 hp.2

/-- C5 amended: every chunk emitted by `split_text_into_chunks` either
carries the code-block sentinel, or has length at most `max_text_length`, or
is the whole input text — the last case covering both the short-input path
and the final fallback that re-emits the whole text when no chunk was
produced (e.g. whitespace-only input), which is the case the original claim
misses.  Forced sub-chunks of oversized paragraphs are in fact also bounded
by `max_text_length`, so they need no exemption. -/
theorem chunk_length_bound (text : Str) (maxLen : Nat) (hm : 1 ≤ maxLen)
    (hascii : ∀ ch ∈ text, ch.toNat < 128) :
    ∀ c ∈ splitTextIntoChunks text maxLen,
      sentinel.isPrefixOf c = true ∨ c.length ≤ maxLen ∨ c = text := by
  intro c hc
  unfold splitTextIntoChunks at hc
  split at hc
  · simp only [List.mem_singleton] at hc
    exact Or.inr (Or.inr hc)
  · have hinv := chunkSegs_inv maxLen
      (splitByCodeBlocks text (identifyCodeBlocks text)) [] []
      (by intro c hc; simp at hc) (by simp)
    set st := chunkSegs maxLen (splitByCodeBlocks text (identifyCodeBlocks text)) [] []
      with hst
    dsimp only at hc
    by_cases h2e : st.2.isEmpty = true
    · rw [if_pos h2e] at hc
      by_cases hch : st.1.isEmpty = true
      · rw [if_pos hch] at hc
        simp only [List.mem_singleton] at hc
        exact Or.inr (Or.inr hc)
      · rw [if_neg hch] at hc
        rcases hinv.1 c hc with h | h
        · exact Or.inl h
        · exact Or.inr (Or.inl h)
    · rw [if_neg h2e] at hc
      by_cases hch : (st.1 ++ [st.2]).isEmpty = true
      · rw [if_pos hch] at hc
        simp only [List.mem_singleton] at hc
        exact Or.inr (Or.inr hc)
      · rw [if_neg hch] at hc
        rcases List.mem_append.mp hc with hc1 | hc1
        · rcases hinv.1 c hc1 with h | h
          · exact Or.inl h
          · exact Or.inr (Or.inl h)
        · simp only [List.mem_singleton] at hc1
          subst hc1
          exact Or.inr (Or.inl hinv.2)

/-- Witness for `chunk_length_bound` at the first chunk of a concrete
split. -/
theorem chunk_length_bound_witness :
    sentinel.isPrefixOf ("aaaa".toList) = true ∨ "aaaa".toList.length ≤ 5 ∨
      "aaaa".toList = "aaaa bbbb".toList :=
  chunk_length_bound ("aaaa bbbb".toList) 5 (by decide) (by decide)
    "aaaa".toList (by decide)

/-! ## C10 -/

/-- C10: `split_long_paragraph` mixes byte and character indices; on the
2-byte character `é` with `max_length = 1` the first window ends at byte
offset 1, inside the character, and the slice `paragraph[0..1]` is off a
character boundary — the byte-accurate model returns `none`, i.e. the Rust
code panics instead of returning normally. -/
theorem split_long_paragraph_multibyte_panic :
    byteLen ['é'] = 2 ∧ splitLongParagraphBytes ['é'] 1 = none := by
  decide

end MarkdownTranslator
